import Mathlib

/-!
# Verification of the Route Geometry Assembly & Virtual Stop Synthesis Engine

Shallow embedding of `action-scripts/update-routes.js`.

Modelling conventions:
* JavaScript numbers are modelled as exact rationals (`ℚ`).  The JS value
  `Infinity` (used only as the initial `minDist` of the polyline projector)
  is modelled as `⊤` in `WithTop ℚ`.
* `haversineDistance` is a transcendental floating-point function
  (sin/cos/atan2/sqrt); it has no exact rational embedding.  Every
  definition that calls it therefore takes the distance function as an
  explicit parameter `dist : Coord → Coord → ℚ`, and the theorems either
  hold for *all* such functions or state the properties of the Haversine
  distance they use as hypotheses (non-negativity, `dist x x = 0`).
  `mdist` below is a concrete computable instance used to evaluate the
  statements on explicit inputs.
* Coordinates are `(lon, lat)` pairs, exactly as in the source.
-/

unseal Rat.add Rat.sub Rat.mul Rat.inv Rat.ofScientific

/-- A `(lon, lat)` coordinate pair, as used throughout `update-routes.js`. -/
abbrev Coord : Type := ℚ × ℚ

/-- The type of the distance function abstracting `haversineDistance`
(metres). -/
abbrev DistFn : Type := Coord → Coord → ℚ

/-- `Math.abs`, written so that it evaluates by kernel reduction. -/
def absQ (q : ℚ) : ℚ := if q < 0 then -q else q

/-- A concrete computable stand-in distance used to evaluate theorems on
explicit inputs: a scaled taxicab distance.  Like the Haversine distance it
is non-negative, symmetric, and zero exactly on equal points; the scale 500
makes consecutive integer-spaced vertices 500 m apart. -/
def mdist (a b : Coord) : ℚ :=
  500 * (absQ (a.1 - b.1) + absQ (a.2 - b.2))

/-- The default tolerance `1e-6` of `areCoordsEqual`. -/
def TOLERANCE : ℚ := 1/1000000

/-- `areCoordsEqual(a, b, tolerance = 1e-6)` from the source: component-wise
closeness, strict `<` on both axes. -/
def areCoordsEqual (a b : Coord) (tolerance : ℚ := TOLERANCE) : Bool :=
  decide (absQ (a.1 - b.1) < tolerance) && decide (absQ (a.2 - b.2) < tolerance)

/-- A way fragment: the `{id, geometry}` fields of an Overpass way element
that `stitchWays` reads (`geometry` already mapped to `[lon, lat]` pairs). -/
structure WayF where
  wid : ℕ
  geometry : List Coord
deriving DecidableEq, Repr

/-- The loop state of `stitchWays`: the accumulated `stitched` array, the
`lastCoord` variable (`none` models JS `null`/`undefined`), and the ids of
ways for which the continuity warning (`console.warn`) fired. -/
structure StitchState where
  stitched : List Coord
  lastCoord : Option Coord
  warnings : List ℕ
deriving DecidableEq, Repr

/-- The orientation phase of one `stitchWays` iteration: given `lastCoord`
and the fragment coordinates, return the (possibly reversed) coordinates
and whether the continuity warning fired.  With `lastCoord` set, the
fragment is reversed when only its last endpoint matches (`!matchesStart &&
matchesEnd`), and the warning fires when neither endpoint matches.  The JS
code would throw on a fragment with empty geometry while `lastCoord` is set
(it reads `coords[0][0]` of `undefined`); geometry is non-empty for every
real way, and all theorems assume it, so that branch returns as-is. -/
def stitchOrient (lastCoord : Option Coord) (coords : List Coord) :
    List Coord × Bool :=
  match lastCoord, coords.head?, coords.getLast? with
  | some lc, some s, some e =>
    if !areCoordsEqual s lc && areCoordsEqual e lc then (coords.reverse, false)
    else if !areCoordsEqual s lc && !areCoordsEqual e lc then (coords, true)
    else (coords, false)
  | _, _, _ => (coords, false)

/-- One iteration of the `stitchWays` loop body: orient the fragment, drop
its first coordinate when `stitched` is already non-empty, append, and set
`lastCoord` to the last coordinate of the appended slice (`none` models the
JS `undefined` when the slice is empty). -/
def stitchStep (st : StitchState) (w : WayF) : StitchState :=
  { stitched := st.stitched ++
      (if st.stitched.isEmpty then (stitchOrient st.lastCoord w.geometry).1
       else (stitchOrient st.lastCoord w.geometry).1.tail)
    lastCoord :=
      (if st.stitched.isEmpty then (stitchOrient st.lastCoord w.geometry).1
       else (stitchOrient st.lastCoord w.geometry).1.tail).getLast?
    warnings :=
      if (stitchOrient st.lastCoord w.geometry).2 then st.warnings ++ [w.wid]
      else st.warnings }

/-- `stitchWays(ways)` from the source, as a fold of `stitchStep` from the
empty state. -/
def stitchWays (ways : List WayF) : StitchState :=
  ways.foldl stitchStep { stitched := [], lastCoord := none, warnings := [] }

/-- The adjacency of claim C3, as the source tests it: the second fragment's
first coordinate matches (within the 1e-6 tolerance, component-wise) the
first fragment's last coordinate. -/
def adjacentOKb (w1 w2 : WayF) : Bool :=
  match w2.geometry.head?, w1.geometry.getLast? with
  | some s, some e => areCoordsEqual s e
  | _, _ => false

/-- Propositional form of `adjacentOKb`. -/
def adjacentOK (w1 w2 : WayF) : Prop := adjacentOKb w1 w2 = true

instance : DecidableRel adjacentOK := fun w1 w2 =>
  inferInstanceAs (Decidable (adjacentOKb w1 w2 = true))

lemma adjacentOK_elim {w1 w2 : WayF} {s e : Coord}
    (h : adjacentOK w1 w2) (hs : w2.geometry.head? = some s)
    (he : w1.geometry.getLast? = some e) : areCoordsEqual s e = true := by
  unfold adjacentOK adjacentOKb at h
  rw [hs, he] at h
  exact h

lemma getLast?_tail_of_two {l : List Coord} (h : 2 ≤ l.length) :
    l.tail.getLast? = l.getLast? := by
  match l, h with
  | a :: b :: t, _ => simp [List.getLast?_cons_cons]

lemma tail_ne_nil_of_two {l : List Coord} (h : 2 ≤ l.length) : l.tail ≠ [] := by
  match l, h with
  | a :: b :: t, _ => simp

lemma geom_getLast?_some {w : WayF} (h : w.geometry ≠ []) :
    ∃ e, w.geometry.getLast? = some e :=
  ⟨w.geometry.getLast h, List.getLast?_eq_getLast _ h⟩

/-- When the fragment starts at `lastCoord`, the orientation phase keeps it
as-is and fires no warning. -/
lemma stitchOrient_matchStart {lc s e : Coord} {coords : List Coord}
    (hs : coords.head? = some s) (he : coords.getLast? = some e)
    (hse : areCoordsEqual s lc = true) :
    stitchOrient (some lc) coords = (coords, false) := by
  unfold stitchOrient
  rw [hs, he]
  simp [hse]

/-- `stitchStep` on a state with non-empty `stitched` and a fragment that
starts at `lastCoord`: append the tail, no warning, `lastCoord` becomes the
fragment's last coordinate. -/
lemma stitchStep_adjacent {st : StitchState} {w : WayF} {s e lc : Coord}
    (hlast : st.lastCoord = some lc) (hne : st.stitched ≠ [])
    (hs : w.geometry.head? = some s) (he : w.geometry.getLast? = some e)
    (hse : areCoordsEqual s lc = true) (hw2 : 2 ≤ w.geometry.length) :
    stitchStep st w =
      ⟨st.stitched ++ w.geometry.tail, some e, st.warnings⟩ := by
  unfold stitchStep
  rw [hlast, stitchOrient_matchStart hs he hse]
  have hemp : st.stitched.isEmpty = false := by
    simp [List.isEmpty_iff, hne]
  simp only [hemp, Bool.false_eq_true, if_false, if_neg]
  rw [getLast?_tail_of_two hw2, he]

/-- Helper for C3: folding `stitchStep` over a chain of adjacent fragments,
starting from a state whose `lastCoord` is the previous fragment's last
coordinate, emits no warnings and contributes `length − 1` coordinates per
fragment. -/
lemma stitchGo_adjacent :
    ∀ (rest : List WayF) (st : StitchState) (e : Coord),
      st.lastCoord = some e → st.stitched ≠ [] →
      (∀ w ∈ rest, 2 ≤ w.geometry.length) →
      (match rest.head? with
       | some w2 => ∃ s, w2.geometry.head? = some s ∧ areCoordsEqual s e = true
       | none => True) →
      List.Chain' adjacentOK rest →
      (rest.foldl stitchStep st).warnings = st.warnings ∧
      (rest.foldl stitchStep st).stitched.length + rest.length =
        st.stitched.length + (rest.map (fun w => w.geometry.length)).sum := by
  intro rest
  induction rest with
  | nil => intro st e _ _ _ _ _; simp
  | cons w rest ih =>
    intro st e hlast hne hlen hhead hchain
    obtain ⟨s, hs, hse⟩ := hhead
    have hw2 : 2 ≤ w.geometry.length := hlen w (List.mem_cons_self w rest)
    have hgne : w.geometry ≠ [] := by
      intro h; rw [h] at hw2; simp at hw2
    obtain ⟨eW, heW⟩ := geom_getLast?_some hgne
    have hstep : stitchStep st w =
        ⟨st.stitched ++ w.geometry.tail, some eW, st.warnings⟩ :=
      stitchStep_adjacent hlast hne hs heW hse hw2
    have hne2 : (stitchStep st w).stitched ≠ [] := by
      rw [hstep]
      simp [tail_ne_nil_of_two hw2]
    have hlast2 : (stitchStep st w).lastCoord = some eW := by rw [hstep]
    have hhead2 : (match rest.head? with
        | some w2 => ∃ s2, w2.geometry.head? = some s2 ∧ areCoordsEqual s2 eW = true
        | none => True) := by
      cases rest with
      | nil => trivial
      | cons w2 rest' =>
        have hadj : adjacentOK w w2 := (List.chain'_cons'.mp hchain).1 w2 rfl
        have hg2 : 2 ≤ w2.geometry.length :=
          hlen w2 (List.mem_cons_of_mem _ (List.mem_cons_self w2 rest'))
        have hg2ne : w2.geometry ≠ [] := by
          intro h; rw [h] at hg2; simp at hg2
        obtain ⟨s2, hs2⟩ : ∃ s2, w2.geometry.head? = some s2 := by
          cases hgg : w2.geometry with
          | nil => exact absurd hgg hg2ne
          | cons a t => exact ⟨a, by simp⟩
        exact ⟨s2, hs2, adjacentOK_elim hadj hs2 heW⟩
    have hchain2 : List.Chain' adjacentOK rest := (List.chain'_cons'.mp hchain).2
    have hlen2 : ∀ v ∈ rest, 2 ≤ v.geometry.length :=
      fun v hv => hlen v (List.mem_cons_of_mem _ hv)
    obtain ⟨ihw, ihl⟩ := ih (stitchStep st w) eW hlast2 hne2 hlen2 hhead2 hchain2
    rw [hstep] at ihw ihl
    constructor
    · rw [List.foldl_cons, hstep, ihw]
    · rw [List.foldl_cons, hstep]
      simp only [List.length_append, List.map_cons, List.sum_cons,
        List.length_cons] at ihl ⊢
      have htail : w.geometry.tail.length + 1 = w.geometry.length := by
        have := List.length_tail w.geometry
        omega
      omega

/-- C3: for a non-empty list of fragments (each with ≥ 2 coordinates, per
the WayFragment data model) that is pairwise endpoint-adjacent within the
1e-6 tolerance, `stitchWays` emits no continuity warning and the stitched
coordinate count is the sum of the fragment lengths minus
(fragmentCount − 1). -/
theorem stitchWays_adjacent_length (ways : List WayF)
    (hne : ways ≠ [])
    (hlen : ∀ w ∈ ways, 2 ≤ w.geometry.length)
    (hadj : List.Chain' adjacentOK ways) :
    (stitchWays ways).warnings = [] ∧
    (stitchWays ways).stitched.length =
      (ways.map (fun w => w.geometry.length)).sum - (ways.length - 1) := by
  match ways, hne with
  | w :: rest, _ =>
    have hw2 : 2 ≤ w.geometry.length := hlen w (List.mem_cons_self w rest)
    have hgne : w.geometry ≠ [] := by
      intro h; rw [h] at hw2; simp at hw2
    obtain ⟨eW, heW⟩ := geom_getLast?_some hgne
    have hstep : stitchStep { stitched := [], lastCoord := none, warnings := [] } w =
        ⟨w.geometry, some eW, []⟩ := by
      unfold stitchStep stitchOrient
      simp [heW]
    have hhead : (match rest.head? with
        | some w2 => ∃ s2, w2.geometry.head? = some s2 ∧ areCoordsEqual s2 eW = true
        | none => True) := by
      cases rest with
      | nil => trivial
      | cons w2 rest' =>
        have hadj2 : adjacentOK w w2 := (List.chain'_cons'.mp hadj).1 w2 rfl
        have hg2 : 2 ≤ w2.geometry.length :=
          hlen w2 (List.mem_cons_of_mem _ (List.mem_cons_self w2 rest'))
        have hg2ne : w2.geometry ≠ [] := by
          intro h; rw [h] at hg2; simp at hg2
        obtain ⟨s2, hs2⟩ : ∃ s2, w2.geometry.head? = some s2 := by
          cases hgg : w2.geometry with
          | nil => exact absurd hgg hg2ne
          | cons a t => exact ⟨a, by simp⟩
        exact ⟨s2, hs2, adjacentOK_elim hadj2 hs2 heW⟩
    obtain ⟨hwarn, hcount⟩ := stitchGo_adjacent rest
      ⟨w.geometry, some eW, []⟩ eW rfl hgne
      (fun v hv => hlen v (List.mem_cons_of_mem _ hv)) hhead
      (List.chain'_cons'.mp hadj).2
    have hfold : stitchWays (w :: rest) = rest.foldl stitchStep
        ⟨w.geometry, some eW, []⟩ := by
      unfold stitchWays
      rw [List.foldl_cons, hstep]
    constructor
    · rw [hfold, hwarn]
    · rw [hfold]
      simp only [List.map_cons, List.sum_cons, List.length_cons] at hcount ⊢
      omega

/-- Witness for C3 at a concrete input: two adjacent fragments of lengths
3 and 2 stitch into 3 + 2 − 1 = 4 coordinates with no warning. -/
theorem stitchWays_adjacent_length_witness :
    (stitchWays [⟨1, [(0,0),(1,0),(2,0)]⟩, ⟨2, [(2,0),(3,0)]⟩]).warnings = [] ∧
    (stitchWays [⟨1, [(0,0),(1,0),(2,0)]⟩, ⟨2, [(2,0),(3,0)]⟩]).stitched.length =
      ([⟨1, [(0,0),(1,0),(2,0)]⟩, ⟨2, [(2,0),(3,0)]⟩].map
        (fun w : WayF => w.geometry.length)).sum -
      ([(⟨1, [(0,0),(1,0),(2,0)]⟩ : WayF), ⟨2, [(2,0),(3,0)]⟩].length - 1) :=
  stitchWays_adjacent_length _ (by decide) (by decide)
    (by rw [List.chain'_cons]; exact ⟨by decide, List.chain'_singleton _⟩)

/-- The initial state of the `stitchWays` loop. -/
def initStitch : StitchState := ⟨[], none, []⟩

lemma stitchWays_eq_foldl (ways : List WayF) :
    stitchWays ways = ways.foldl stitchStep initStitch := rfl

/-- A step on a fragment with ≥ 2 coordinates leaves `stitched` non-empty
and `lastCoord` set. -/
lemma stitchStep_good {st : StitchState} {w : WayF}
    (hw : 2 ≤ w.geometry.length) :
    (stitchStep st w).stitched ≠ [] ∧ ∃ c, (stitchStep st w).lastCoord = some c := by
  unfold stitchStep
  have hor : 2 ≤ (stitchOrient st.lastCoord w.geometry).1.length := by
    unfold stitchOrient
    match st.lastCoord, hh : w.geometry.head?, hl : w.geometry.getLast? with
    | some lc, some s, some e =>
      by_cases h1 : (!areCoordsEqual s lc && areCoordsEqual e lc) = true
      · simp only [h1, if_true]
        simpa using hw
      · by_cases h2 : (!areCoordsEqual s lc && !areCoordsEqual e lc) = true
        · simp only [h1, h2, if_false, if_true]
          exact hw
        · simp only [h1, h2, if_false]
          exact hw
    | some lc, some s, none => simpa using hw
    | some lc, none, _ =>
      exfalso
      rw [List.head?_eq_none_iff] at hh
      rw [hh] at hw
      simp at hw
    | none, _, _ => simpa using hw
  by_cases hemp : st.stitched.isEmpty
  · have hne : (stitchOrient st.lastCoord w.geometry).1 ≠ [] := by
      intro h; rw [h] at hor; simp at hor
    simp only [hemp, if_true]
    refine ⟨by simp [hne], ?_⟩
    obtain ⟨c, hc⟩ : ∃ c, (stitchOrient st.lastCoord w.geometry).1.getLast? = some c :=
      ⟨_, List.getLast?_eq_getLast _ hne⟩
    exact ⟨c, hc⟩
  · have hne : (stitchOrient st.lastCoord w.geometry).1.tail ≠ [] := by
      have := List.length_tail (stitchOrient st.lastCoord w.geometry).1
      intro h
      have : (stitchOrient st.lastCoord w.geometry).1.tail.length = 0 := by rw [h]; rfl
      omega
    simp only [hemp, if_false]
    refine ⟨by simp [hne], ?_⟩
    obtain ⟨c, hc⟩ : ∃ c, (stitchOrient st.lastCoord w.geometry).1.tail.getLast? = some c :=
      ⟨_, List.getLast?_eq_getLast _ hne⟩
    exact ⟨c, hc⟩

/-- Folding over a non-empty list of fragments with ≥ 2 coordinates leaves
`stitched` non-empty and `lastCoord` set. -/
lemma stitchFold_good :
    ∀ (l : List WayF) (st : StitchState), l ≠ [] →
      (∀ w ∈ l, 2 ≤ w.geometry.length) →
      (l.foldl stitchStep st).stitched ≠ [] ∧
      ∃ c, (l.foldl stitchStep st).lastCoord = some c := by
  intro l
  induction l with
  | nil => intro st h _; exact absurd rfl h
  | cons w rest ih =>
    intro st _ hlen
    rw [List.foldl_cons]
    cases rest with
    | nil =>
      simpa using stitchStep_good (hlen w (List.mem_cons_self w []))
    | cons w2 rest' =>
      exact ih (stitchStep st w) (by simp)
        (fun v hv => hlen v (List.mem_cons_of_mem _ hv))

/-- Warnings only accumulate along the fold. -/
lemma stitchFold_warnings_mono :
    ∀ (l : List WayF) (st : StitchState),
      ∃ t, (l.foldl stitchStep st).warnings = st.warnings ++ t := by
  intro l
  induction l with
  | nil => intro st; exact ⟨[], by simp⟩
  | cons w rest ih =>
    intro st
    rw [List.foldl_cons]
    obtain ⟨t, ht⟩ := ih (stitchStep st w)
    by_cases hwarn : (stitchOrient st.lastCoord w.geometry).2
    · refine ⟨w.wid :: t, ?_⟩
      rw [ht]
      show (stitchStep st w).warnings ++ t = _
      unfold stitchStep
      simp [hwarn]
    · refine ⟨t, ?_⟩
      rw [ht]
      show (stitchStep st w).warnings ++ t = _
      unfold stitchStep
      simp [hwarn]

/-- When the fragment connects only via its last endpoint, the orientation
phase reverses it and fires no warning. -/
lemma stitchOrient_matchEnd {lc s e : Coord} {coords : List Coord}
    (hs : coords.head? = some s) (he : coords.getLast? = some e)
    (hsl : areCoordsEqual s lc = false) (hel : areCoordsEqual e lc = true) :
    stitchOrient (some lc) coords = (coords.reverse, false) := by
  unfold stitchOrient
  rw [hs, he]
  simp [hsl, hel]

/-- Orientation is insensitive to reversing the fragment, provided at least
one endpoint matches `lastCoord` and not both do. -/
lemma stitchOrient_flip {lc s e : Coord} {g : List Coord}
    (hs : g.head? = some s) (he : g.getLast? = some e)
    (hconn : areCoordsEqual s lc = true ∨ areCoordsEqual e lc = true)
    (hnotboth : ¬(areCoordsEqual s lc = true ∧ areCoordsEqual e lc = true)) :
    stitchOrient (some lc) g.reverse = stitchOrient (some lc) g := by
  have hs' : g.reverse.head? = some e := by rw [List.head?_reverse, he]
  have he' : g.reverse.getLast? = some s := by rw [List.getLast?_reverse, hs]
  rcases hconn with hsl | hel
  · have hel : areCoordsEqual e lc = false := by
      rcases hb : areCoordsEqual e lc with _ | _
      · rfl
      · exact absurd ⟨hsl, hb⟩ hnotboth
    rw [stitchOrient_matchEnd hs' he' hel hsl, List.reverse_reverse,
      stitchOrient_matchStart hs he hsl]
  · have hsl : areCoordsEqual s lc = false := by
      rcases hb : areCoordsEqual s lc with _ | _
      · rfl
      · exact absurd ⟨hb, hel⟩ hnotboth
    rw [stitchOrient_matchStart hs' he' hel, stitchOrient_matchEnd hs he hsl hel]

/-- A whole `stitchStep` is insensitive to reversing the fragment under the
conditions of `stitchOrient_flip`. -/
lemma stitchStep_flip {st : StitchState} {w : WayF} {lc s e : Coord}
    (hlast : st.lastCoord = some lc)
    (hs : w.geometry.head? = some s) (he : w.geometry.getLast? = some e)
    (hconn : areCoordsEqual s lc = true ∨ areCoordsEqual e lc = true)
    (hnotboth : ¬(areCoordsEqual s lc = true ∧ areCoordsEqual e lc = true)) :
    stitchStep st ⟨w.wid, w.geometry.reverse⟩ = stitchStep st w := by
  unfold stitchStep
  rw [hlast]
  rw [show (⟨w.wid, w.geometry.reverse⟩ : WayF).geometry = w.geometry.reverse from rfl]
  rw [stitchOrient_flip hs he hconn hnotboth]

/-- C4 (amended): reversing a single non-first fragment before stitching
yields exactly the same result, for every fragment list that stitches
without continuity warnings, provided the reversed fragment's endpoints are
not both within tolerance of the accumulated last coordinate at its step
(i.e. the fragment is not a near-loop there). -/
theorem stitchWays_flip_invariant (l1 l2 : List WayF) (w : WayF)
    (h1 : l1 ≠ [])
    (hlen : ∀ v ∈ l1 ++ w :: l2, 2 ≤ v.geometry.length)
    (hnowarn : (stitchWays (l1 ++ w :: l2)).warnings = [])
    (hnotboth : ∀ lc s e, (l1.foldl stitchStep initStitch).lastCoord = some lc →
      w.geometry.head? = some s → w.geometry.getLast? = some e →
      ¬(areCoordsEqual s lc = true ∧ areCoordsEqual e lc = true)) :
    stitchWays (l1 ++ ⟨w.wid, w.geometry.reverse⟩ :: l2) =
      stitchWays (l1 ++ w :: l2) := by
  have hw2 : 2 ≤ w.geometry.length :=
    hlen w (List.mem_append.mpr (Or.inr (List.mem_cons_self w l2)))
  have hgne : w.geometry ≠ [] := by
    intro h; rw [h] at hw2; simp at hw2
  obtain ⟨s, hs⟩ : ∃ s, w.geometry.head? = some s := by
    cases hgg : w.geometry with
    | nil => exact absurd hgg hgne
    | cons a t => exact ⟨a, by simp⟩
  obtain ⟨e, he⟩ := geom_getLast?_some hgne
  obtain ⟨hne1, lc, hlc⟩ := stitchFold_good l1 initStitch h1
    (fun v hv => hlen v (List.mem_append.mpr (Or.inl hv)))
  have hsplit : stitchWays (l1 ++ w :: l2) =
      l2.foldl stitchStep (stitchStep (l1.foldl stitchStep initStitch) w) := by
    rw [stitchWays_eq_foldl, List.foldl_append, List.foldl_cons]
  have hsplit2 : stitchWays (l1 ++ ⟨w.wid, w.geometry.reverse⟩ :: l2) =
      l2.foldl stitchStep
        (stitchStep (l1.foldl stitchStep initStitch) ⟨w.wid, w.geometry.reverse⟩) := by
    rw [stitchWays_eq_foldl, List.foldl_append, List.foldl_cons]
  set st1 := l1.foldl stitchStep initStitch with hst1
  -- the step at `w` fired no warning, so at least one endpoint matches
  have hconn : areCoordsEqual s lc = true ∨ areCoordsEqual e lc = true := by
    by_contra hcon
    push_neg at hcon
    have hsl := hcon.1
    have hel := hcon.2
    have hsl' : areCoordsEqual s lc = false := by
      rcases hb : areCoordsEqual s lc with _ | _
      · rfl
      · exact absurd hb hsl
    have hel' : areCoordsEqual e lc = false := by
      rcases hb : areCoordsEqual e lc with _ | _
      · rfl
      · exact absurd hb hel
    have hwarn : (stitchOrient st1.lastCoord w.geometry).2 = true := by
      rw [hlc]
      unfold stitchOrient
      rw [hs, he]
      simp [hsl', hel']
    have hwstep : (stitchStep st1 w).warnings = st1.warnings ++ [w.wid] := by
      unfold stitchStep
      simp [hwarn]
    obtain ⟨t, ht⟩ := stitchFold_warnings_mono l2 (stitchStep st1 w)
    rw [hsplit] at hnowarn
    rw [ht, hwstep] at hnowarn
    simp at hnowarn
  rw [hsplit, hsplit2,
    stitchStep_flip hlc hs he hconn (hnotboth lc s e hlc hs he)]

/-- Counterexample for C4 as stated: three fragments where the interior one
is a near-loop (both endpoints within 1e-6 of the accumulated last
coordinate).  The original list stitches with no continuity warning, yet
reversing the interior fragment changes the output coordinate sequence, so
`stitchWays` is not orientation-invariant without the near-loop proviso. -/
theorem stitchWays_flip_cex :
    (stitchWays [⟨1, [(0,0),(1,0)]⟩, ⟨2, [(1,0),(2,0),(1,1/2000000)]⟩,
        ⟨3, [(1,1/2000000),(3,3)]⟩]).warnings = [] ∧
    (stitchWays [⟨1, [(0,0),(1,0)]⟩, ⟨2, [(1,0),(2,0),(1,1/2000000)].reverse⟩,
        ⟨3, [(1,1/2000000),(3,3)]⟩]).stitched ≠
      (stitchWays [⟨1, [(0,0),(1,0)]⟩, ⟨2, [(1,0),(2,0),(1,1/2000000)]⟩,
        ⟨3, [(1,1/2000000),(3,3)]⟩]).stitched := by
  constructor
  · decide
  · decide

/-- C5: a fragment (after the first) whose last coordinate matches the
accumulated last coordinate within tolerance while its first does not is
reversed before appending; in particular
`stitch([[(0,0),(1,0)], [(2,0),(1,0)]]) = [(0,0),(1,0),(2,0)]`. -/
theorem stitchStep_reverses_on_end_match :
    (∀ (st : StitchState) (n : ℕ) (g : List Coord) (lc s e : Coord),
      st.lastCoord = some lc → st.stitched ≠ [] →
      g.head? = some s → g.getLast? = some e →
      areCoordsEqual e lc = true → areCoordsEqual s lc = false →
      (stitchStep st ⟨n, g⟩).stitched = st.stitched ++ g.reverse.tail) ∧
    (stitchWays [⟨1, [(0,0),(1,0)]⟩, ⟨2, [(2,0),(1,0)]⟩]).stitched =
      [(0,0),(1,0),(2,0)] := by
  constructor
  · intro st n g lc s e hlast hne hs he hel hsl
    unfold stitchStep
    rw [hlast]
    rw [show (⟨n, g⟩ : WayF).geometry = g from rfl]
    rw [stitchOrient_matchEnd hs he hsl hel]
    have hemp : st.stitched.isEmpty = false := by
      simp [List.isEmpty_iff, hne]
    simp [hemp]
  · decide

/-- Witness for the universally quantified part of C5 at a concrete input. -/
theorem stitchStep_reverses_on_end_match_witness :
    (stitchStep ⟨[(0,0),(1,0)], some (1,0), []⟩ ⟨2, [(2,0),(1,0)]⟩).stitched =
      [(0,0),(1,0)] ++ [((2:ℚ),(0:ℚ)),(1,0)].reverse.tail :=
  stitchStep_reverses_on_end_match.1 ⟨[(0,0),(1,0)], some (1,0), []⟩ 2
    [(2,0),(1,0)] (1,0) (2,0) (1,0) rfl (by decide) rfl (by decide)
    (by decide) (by decide)

/-- The result record of `projectPointToLineString`:
`{fractionalIndex, distance}`.  `distance` lives in `WithTop ℚ` because the
JS code initialises `minDist = Infinity`. -/
structure ProjResult where
  fractionalIndex : ℚ
  distance : WithTop ℚ
deriving DecidableEq, Repr

/-- The loop state of `projectPointToLineString`: `minDist`, `minIndex`
(initially `-1`) and `minT`. -/
structure ProjState where
  minDist : WithTop ℚ
  minIndex : ℤ
  minT : ℚ
deriving DecidableEq, Repr

/-- The candidate `(distance, t)` that one iteration of the projector loop
computes for the segment `(p1, p2)`: the planar scalar projection of
`point`, clamped to `[0,1]`, measured with `dist`; a zero-length segment is
treated as the point-distance candidate with `t = 0`, exactly as in the
source (`if (lenSq === 0) ...`). -/
def segCandidate (dist : DistFn) (point p1 p2 : Coord) : ℚ × ℚ :=
  let dx := p2.1 - p1.1
  let dy := p2.2 - p1.2
  let lenSq := dx * dx + dy * dy
  if lenSq = 0 then (dist point p1, 0)
  else
    let t := max 0 (min 1 (((point.1 - p1.1) * dx + (point.2 - p1.2) * dy) / lenSq))
    (dist point (p1.1 + t * dx, p1.2 + t * dy), t)

/-- The `for (let i = 0; i < line.length - 1; i++)` loop of
`projectPointToLineString`, over the list of consecutive segment pairs,
carrying the running index: strict improvement (`dist < minDist`) updates
the state, so the first-encountered minimum wins. -/
def projLoop (dist : DistFn) (point : Coord) :
    ℕ → List (Coord × Coord) → ProjState → ProjState
  | _, [], st => st
  | i, p :: ps, st =>
    projLoop dist point (i + 1) ps
      (if ((segCandidate dist point p.1 p.2).1 : WithTop ℚ) < st.minDist then
        ⟨((segCandidate dist point p.1 p.2).1 : WithTop ℚ), (i : ℤ),
          (segCandidate dist point p.1 p.2).2⟩
       else st)

/-- `projectPointToLineString(point, line)` from the source: scan all
consecutive segments (the zip of the line with its tail), starting from
`minDist = Infinity`, `minIndex = -1`, `minT = 0`, and return
`{fractionalIndex: minIndex + minT, distance: minDist}`. -/
def projectPointToLineString (dist : DistFn) (point : Coord)
    (line : List Coord) : ProjResult :=
  let st := projLoop dist point 0 (line.zip line.tail) ⟨⊤, -1, 0⟩
  ⟨(st.minIndex : ℚ) + st.minT, st.minDist⟩

/-- The candidate of segment `j` of a pair list. -/
def candP (dist : DistFn) (point : Coord) (ps : List (Coord × Coord))
    (j : ℕ) : ℚ × ℚ :=
  segCandidate dist point (ps.getD j ((0,0),(0,0))).1 (ps.getD j ((0,0),(0,0))).2

/-- The candidate of segment `j` of a line (its vertices `j` and `j+1`). -/
def candAt (dist : DistFn) (point : Coord) (line : List Coord) (j : ℕ) : ℚ × ℚ :=
  segCandidate dist point (line.getD j (0,0)) (line.getD (j+1) (0,0))

lemma candP_cons_zero (dist : DistFn) (point : Coord) (p : Coord × Coord)
    (ps : List (Coord × Coord)) :
    candP dist point (p :: ps) 0 = segCandidate dist point p.1 p.2 := rfl

lemma candP_cons_succ (dist : DistFn) (point : Coord) (p : Coord × Coord)
    (ps : List (Coord × Coord)) (j : ℕ) :
    candP dist point (p :: ps) (j + 1) = candP dist point ps j := rfl

/-- Full characterisation of the projector loop: either no candidate beats
the incoming state (which is then returned unchanged), or the result is the
candidate of the *first* segment attaining the global minimum among the
scanned segments, strictly better than the incoming state. -/
lemma projLoop_spec (dist : DistFn) (point : Coord) :
    ∀ (ps : List (Coord × Coord)) (i : ℕ) (st : ProjState),
      (projLoop dist point i ps st = st ∧
        ∀ j, j < ps.length → st.minDist ≤ ((candP dist point ps j).1 : WithTop ℚ)) ∨
      (∃ j, j < ps.length ∧
        (projLoop dist point i ps st).minIndex = (i : ℤ) + j ∧
        (projLoop dist point i ps st).minT = (candP dist point ps j).2 ∧
        (projLoop dist point i ps st).minDist = ((candP dist point ps j).1 : WithTop ℚ) ∧
        ((candP dist point ps j).1 : WithTop ℚ) < st.minDist ∧
        (∀ k, k < ps.length → (candP dist point ps j).1 ≤ (candP dist point ps k).1) ∧
        (∀ k, k < j → (candP dist point ps j).1 < (candP dist point ps k).1)) := by
  intro ps
  induction ps with
  | nil =>
    intro i st
    left
    exact ⟨rfl, fun j hj => by simp at hj⟩
  | cons p ps ih =>
    intro i st
    by_cases hlt : ((segCandidate dist point p.1 p.2).1 : WithTop ℚ) < st.minDist
    · have hstep : projLoop dist point i (p :: ps) st =
          projLoop dist point (i + 1) ps
            ⟨((segCandidate dist point p.1 p.2).1 : WithTop ℚ), (i : ℤ),
              (segCandidate dist point p.1 p.2).2⟩ := by
        show projLoop dist point (i + 1) ps
          (if ((segCandidate dist point p.1 p.2).1 : WithTop ℚ) < st.minDist then _
           else st) = _
        rw [if_pos hlt]
      rcases ih (i + 1)
          ⟨((segCandidate dist point p.1 p.2).1 : WithTop ℚ), (i : ℤ),
            (segCandidate dist point p.1 p.2).2⟩ with ⟨heq, hall⟩ | ⟨j, hj, hidx, hT, hD, hlt2, hglob, hfirst⟩
      · right
        refine ⟨0, by simp, ?_, ?_, ?_, ?_, ?_, ?_⟩
        · rw [hstep, heq]; simp
        · rw [hstep, heq, candP_cons_zero]
        · rw [hstep, heq, candP_cons_zero]
        · rw [candP_cons_zero]; exact hlt
        · intro k hk
          cases k with
          | zero => simp [candP_cons_zero]
          | succ k =>
            rw [candP_cons_zero, candP_cons_succ]
            have := hall k (by simpa using hk)
            simpa using this
        · intro k hk; omega
      · right
        refine ⟨j + 1, by simpa using hj, ?_, ?_, ?_, ?_, ?_, ?_⟩
        · rw [hstep, hidx]; push_cast; ring
        · rw [hstep, hT, candP_cons_succ]
        · rw [hstep, hD, candP_cons_succ]
        · rw [candP_cons_succ]
          calc ((candP dist point ps j).1 : WithTop ℚ) <
              ((segCandidate dist point p.1 p.2).1 : WithTop ℚ) := hlt2
            _ < st.minDist := hlt
        · intro k hk
          cases k with
          | zero =>
            rw [candP_cons_succ, candP_cons_zero]
            have h1 : ((candP dist point ps j).1 : WithTop ℚ) <
                ((segCandidate dist point p.1 p.2).1 : WithTop ℚ) := hlt2
            exact le_of_lt (WithTop.coe_lt_coe.mp h1)
          | succ k =>
            rw [candP_cons_succ, candP_cons_succ]
            exact hglob k (by simpa using hk)
        · intro k hk
          cases k with
          | zero =>
            rw [candP_cons_succ, candP_cons_zero]
            exact WithTop.coe_lt_coe.mp hlt2
          | succ k =>
            rw [candP_cons_succ, candP_cons_succ]
            exact hfirst k (by omega)
    · have hstep : projLoop dist point i (p :: ps) st =
          projLoop dist point (i + 1) ps st := by
        show projLoop dist point (i + 1) ps
          (if ((segCandidate dist point p.1 p.2).1 : WithTop ℚ) < st.minDist then _
           else st) = _
        rw [if_neg hlt]
      rcases ih (i + 1) st with ⟨heq, hall⟩ | ⟨j, hj, hidx, hT, hD, hlt2, hglob, hfirst⟩
      · left
        refine ⟨by rw [hstep, heq], ?_⟩
        intro j hj
        cases j with
        | zero =>
          rw [candP_cons_zero]
          exact not_lt.mp hlt
        | succ j =>
          rw [candP_cons_succ]
          exact hall j (by simpa using hj)
      · right
        refine ⟨j + 1, by simpa using hj, ?_, ?_, ?_, ?_, ?_, ?_⟩
        · rw [hstep, hidx]; push_cast; ring
        · rw [hstep, hT, candP_cons_succ]
        · rw [hstep, hD, candP_cons_succ]
        · rw [candP_cons_succ]; exact hlt2
        · intro k hk
          cases k with
          | zero =>
            rw [candP_cons_succ, candP_cons_zero]
            have h1 : ((candP dist point ps j).1 : WithTop ℚ) ≤
                ((segCandidate dist point p.1 p.2).1 : WithTop ℚ) :=
              le_of_lt (lt_of_lt_of_le hlt2 (not_lt.mp hlt))
            exact WithTop.coe_le_coe.mp h1
          | succ k =>
            rw [candP_cons_succ, candP_cons_succ]
            exact hglob k (by simpa using hk)
        · intro k hk
          cases k with
          | zero =>
            rw [candP_cons_succ, candP_cons_zero]
            exact WithTop.coe_lt_coe.mp (lt_of_lt_of_le hlt2 (not_lt.mp hlt))
          | succ k =>
            rw [candP_cons_succ, candP_cons_succ]
            exact hfirst k (by omega)

lemma zip_tail_getD :
    ∀ (l : List Coord) (j : ℕ), j + 1 < l.length →
      (l.zip l.tail).getD j ((0,0),(0,0)) = (l.getD j (0,0), l.getD (j+1) (0,0)) := by
  intro l
  induction l with
  | nil => intro j hj; simp at hj
  | cons a t ih =>
    intro j hj
    cases t with
    | nil => simp at hj
    | cons b t' =>
      cases j with
      | zero => rfl
      | succ j =>
        have hj' : j + 1 < (b :: t').length := by
          simpa using hj
        have := ih j hj'
        simpa using this

lemma candP_zip_eq_candAt (dist : DistFn) (point : Coord) (line : List Coord)
    (j : ℕ) (hj : j + 1 < line.length) :
    candP dist point (line.zip line.tail) j = candAt dist point line j := by
  unfold candP candAt
  rw [zip_tail_getD line j hj]

lemma zip_tail_length (l : List Coord) : (l.zip l.tail).length = l.length - 1 := by
  rw [List.length_zip, List.length_tail]
  omega

/-- The projector returns the first-best candidate: shared characterisation
behind the argmin and vertex-projection theorems. -/
lemma projectPoint_min_char (dist : DistFn) (point : Coord)
    (line : List Coord) (h2 : 2 ≤ line.length) :
    ∃ j, j + 1 < line.length ∧
      projectPointToLineString dist point line =
        ⟨(j : ℚ) + (candAt dist point line j).2,
          ((candAt dist point line j).1 : WithTop ℚ)⟩ ∧
      (∀ k, k + 1 < line.length →
        (candAt dist point line j).1 ≤ (candAt dist point line k).1) ∧
      (∀ k, k < j → (candAt dist point line j).1 < (candAt dist point line k).1) := by
  have hlen : (line.zip line.tail).length = line.length - 1 := zip_tail_length line
  rcases projLoop_spec dist point (line.zip line.tail) 0 ⟨⊤, -1, 0⟩ with
    ⟨heq, hall⟩ | ⟨j, hj, hidx, hT, hD, _, hglob, hfirst⟩
  · exfalso
    have h0 : (0 : ℕ) < (line.zip line.tail).length := by omega
    have := hall 0 h0
    exact absurd this (by simp)
  · have hjline : j + 1 < line.length := by omega
    refine ⟨j, hjline, ?_, ?_, ?_⟩
    · unfold projectPointToLineString
      rw [candP_zip_eq_candAt dist point line j hjline] at hT hD
      have hfrac : ((projLoop dist point 0 (line.zip line.tail) ⟨⊤, -1, 0⟩).minIndex : ℚ) +
          (projLoop dist point 0 (line.zip line.tail) ⟨⊤, -1, 0⟩).minT =
          (j : ℚ) + (candAt dist point line j).2 := by
        rw [hT, hidx]
        push_cast
        ring
      rw [ProjResult.mk.injEq]
      exact ⟨hfrac, hD⟩
    · intro k hk
      have hkzip : k < (line.zip line.tail).length := by omega
      have := hglob k hkzip
      rw [candP_zip_eq_candAt dist point line j hjline,
        candP_zip_eq_candAt dist point line k hk] at this
      exact this
    · intro k hk
      have hkline : k + 1 < line.length := by omega
      have := hfirst k hk
      rw [candP_zip_eq_candAt dist point line j hjline,
        candP_zip_eq_candAt dist point line k hkline] at this
      exact this

/-- C6: for every line with ≥ 2 coordinates, the projector returns the
`(index, t)` candidate achieving the global minimum `dist` over all
segments (zero-length segments being point-distance candidates with
`t = 0`, by `segCandidate`), with ties resolved in favour of the
lowest-index segment. -/
theorem projectPointToLineString_argmin (dist : DistFn) (point : Coord)
    (line : List Coord) (h2 : 2 ≤ line.length) :
    ∃ j, j + 1 < line.length ∧
      projectPointToLineString dist point line =
        ⟨(j : ℚ) + (candAt dist point line j).2,
          ((candAt dist point line j).1 : WithTop ℚ)⟩ ∧
      (∀ k, k + 1 < line.length →
        (candAt dist point line j).1 ≤ (candAt dist point line k).1) ∧
      (∀ k, k < j → (candAt dist point line j).1 < (candAt dist point line k).1) :=
  projectPoint_min_char dist point line h2

/-- Witness for C6 at a concrete input: point `(1,1)` against the 3-vertex
line `[(0,0),(2,0),(2,2)]`. -/
theorem projectPointToLineString_argmin_witness :
    ∃ j, j + 1 < [((0:ℚ),(0:ℚ)),(2,0),(2,2)].length ∧
      projectPointToLineString mdist (1,1) [(0,0),(2,0),(2,2)] =
        ⟨(j : ℚ) + (candAt mdist (1,1) [(0,0),(2,0),(2,2)] j).2,
          ((candAt mdist (1,1) [(0,0),(2,0),(2,2)] j).1 : WithTop ℚ)⟩ ∧
      (∀ k, k + 1 < [((0:ℚ),(0:ℚ)),(2,0),(2,2)].length →
        (candAt mdist (1,1) [(0,0),(2,0),(2,2)] j).1 ≤
          (candAt mdist (1,1) [(0,0),(2,0),(2,2)] k).1) ∧
      (∀ k, k < j → (candAt mdist (1,1) [(0,0),(2,0),(2,2)] j).1 <
          (candAt mdist (1,1) [(0,0),(2,0),(2,2)] k).1) :=
  projectPointToLineString_argmin mdist (1,1) [(0,0),(2,0),(2,2)] (by decide)

/-- The `lenSq` of segment `j` of a line, as `projectPointToLineString`
computes it. -/
def lenSqAt (line : List Coord) (j : ℕ) : ℚ :=
  ((line.getD (j+1) (0,0)).1 - (line.getD j (0,0)).1) *
    ((line.getD (j+1) (0,0)).1 - (line.getD j (0,0)).1) +
  ((line.getD (j+1) (0,0)).2 - (line.getD j (0,0)).2) *
    ((line.getD (j+1) (0,0)).2 - (line.getD j (0,0)).2)

lemma segCandidate_fst_nonneg (dist : DistFn)
    (hnn : ∀ a b : Coord, 0 ≤ dist a b) (point p1 p2 : Coord) :
    0 ≤ (segCandidate dist point p1 p2).1 := by
  simp only [segCandidate]
  split
  · exact hnn _ _
  · exact hnn _ _

/-- Projecting a segment's own start point yields its distance to itself at
`t = 0`, in both the zero-length and the generic branch. -/
lemma segCandidate_self (dist : DistFn) (p1 p2 : Coord) :
    segCandidate dist p1 p1 p2 = (dist p1 p1, 0) := by
  simp only [segCandidate]
  by_cases h : (p2.1 - p1.1) * (p2.1 - p1.1) + (p2.2 - p1.2) * (p2.2 - p1.2) = 0
  · rw [if_pos h]
  · rw [if_neg h]
    have hnum : (p1.1 - p1.1) * (p2.1 - p1.1) + (p1.2 - p1.2) * (p2.2 - p1.2) = 0 := by
      ring
    rw [hnum, zero_div]
    have hmin : min (1:ℚ) 0 = 0 := by norm_num
    have hmax : max (0:ℚ) 0 = 0 := by norm_num
    rw [hmin, hmax]
    have hp : ((p1.1 + 0 * (p2.1 - p1.1), p1.2 + 0 * (p2.2 - p1.2)) : Coord) = p1 := by
      rw [Prod.ext_iff]
      constructor
      · show p1.1 + 0 * (p2.1 - p1.1) = p1.1
        ring
      · show p1.2 + 0 * (p2.2 - p1.2) = p1.2
        ring
    rw [hp]

/-- Projecting a non-degenerate segment's end point yields its distance to
itself at `t = 1`. -/
lemma segCandidate_endpoint (dist : DistFn) (p1 p2 : Coord)
    (h : (p2.1 - p1.1) * (p2.1 - p1.1) + (p2.2 - p1.2) * (p2.2 - p1.2) ≠ 0) :
    segCandidate dist p2 p1 p2 = (dist p2 p2, 1) := by
  simp only [segCandidate]
  rw [if_neg h, div_self h]
  have hmin : min (1:ℚ) 1 = 1 := min_self 1
  have hmax : max (0:ℚ) 1 = 1 := by norm_num
  rw [hmin, hmax]
  have hp : ((p1.1 + 1 * (p2.1 - p1.1), p1.2 + 1 * (p2.2 - p1.2)) : Coord) = p2 := by
    rw [Prod.ext_iff]
    constructor
    · show p1.1 + 1 * (p2.1 - p1.1) = p2.1
      ring
    · show p1.2 + 1 * (p2.2 - p1.2) = p2.2
      ring
  rw [hp]

/-- C7 (amended): projecting the line's `i`-th vertex returns distance 0
and `fractionalIndex` exactly `i`, for any distance function that is
non-negative and zero on equal points (as the Haversine distance is): at
`t = 0` of segment 0 when `i = 0`, and at `t = 1` of segment `i - 1` when
`i ≥ 1` — *provided*, for `i ≥ 1`, that no segment before `i - 1` attains
distance 0 (the vertex does not reappear earlier on the route) and that
segment `i - 1` is not zero-length. -/
theorem projectPointToLineString_vertex (dist : DistFn) (line : List Coord)
    (i : ℕ) (h2 : 2 ≤ line.length) (hi : i < line.length)
    (hnn : ∀ a b : Coord, 0 ≤ dist a b)
    (hzero : dist (line.getD i (0,0)) (line.getD i (0,0)) = 0) :
    (i = 0 →
      projectPointToLineString dist (line.getD i (0,0)) line =
        ⟨(i : ℚ), ((0:ℚ) : WithTop ℚ)⟩) ∧
    (1 ≤ i →
      (∀ j, j + 1 < i → (candAt dist (line.getD i (0,0)) line j).1 ≠ 0) →
      lenSqAt line (i - 1) ≠ 0 →
      projectPointToLineString dist (line.getD i (0,0)) line =
        ⟨(i : ℚ), ((0:ℚ) : WithTop ℚ)⟩) := by
  obtain ⟨j, hj, heq, hglob, hfirst⟩ :=
    projectPoint_min_char dist (line.getD i (0,0)) line h2
  have hjnn : 0 ≤ (candAt dist (line.getD i (0,0)) line j).1 :=
    segCandidate_fst_nonneg dist hnn _ _ _
  constructor
  · intro hi0
    subst hi0
    have hcand_i : candAt dist (line.getD 0 (0,0)) line 0 = (0, 0) := by
      unfold candAt
      rw [segCandidate_self, hzero]
    have hle : (candAt dist (line.getD 0 (0,0)) line j).1 ≤ 0 := by
      have := hglob 0 (by omega)
      rw [hcand_i] at this
      exact this
    have hj0 : (candAt dist (line.getD 0 (0,0)) line j).1 = 0 :=
      le_antisymm hle hjnn
    have hji : j = 0 := by
      rcases Nat.eq_zero_or_pos j with h | h
      · exact h
      · exfalso
        have := hfirst 0 h
        rw [hj0, hcand_i] at this
        exact absurd this (by norm_num)
    subst hji
    rw [heq, hcand_i]
    simp
  · intro hige hprev hlsq
    have him : i - 1 + 1 = i := by omega
    have hcand_m : candAt dist (line.getD i (0,0)) line (i - 1) = (0, 1) := by
      unfold candAt
      rw [him]
      have hlsq' : ((line.getD i (0,0)).1 - (line.getD (i-1) (0,0)).1) *
            ((line.getD i (0,0)).1 - (line.getD (i-1) (0,0)).1) +
          ((line.getD i (0,0)).2 - (line.getD (i-1) (0,0)).2) *
            ((line.getD i (0,0)).2 - (line.getD (i-1) (0,0)).2) ≠ 0 := by
        unfold lenSqAt at hlsq
        rw [him] at hlsq
        exact hlsq
      rw [segCandidate_endpoint dist _ _ hlsq', hzero]
    have hle : (candAt dist (line.getD i (0,0)) line j).1 ≤ 0 := by
      have hkm : (i - 1) + 1 < line.length := by omega
      have := hglob (i - 1) hkm
      rw [hcand_m] at this
      exact this
    have hj0 : (candAt dist (line.getD i (0,0)) line j).1 = 0 :=
      le_antisymm hle hjnn
    have hji : j = i - 1 := by
      rcases lt_trichotomy j (i - 1) with h | h | h
      · exact absurd hj0 (hprev j (by omega))
      · exact h
      · exfalso
        have := hfirst (i - 1) h
        rw [hj0, hcand_m] at this
        exact absurd this (by norm_num)
    subst hji
    rw [heq, hcand_m]
    have hcast : ((i - 1 : ℕ) : ℚ) + 1 = (i : ℚ) := by
      have h1 : ((i - 1 : ℕ) : ℚ) = (i : ℚ) - 1 := by
        push_cast [Nat.cast_sub hige]
        ring
      rw [h1]
      ring
    rw [ProjResult.mk.injEq]
    constructor
    · show ((i - 1 : ℕ) : ℚ) + (0, 1).2 = (i : ℚ)
      rw [show (((0:ℚ), (1:ℚ)) : ℚ × ℚ).2 = 1 from rfl, hcast]
    · rfl

/-- Witness for C7 (amended) at a concrete input: vertex 1 of the 3-vertex
line `[(0,0),(1,0),(2,1)]`, with `mdist` as the distance (non-negative and
zero on equal points, like the Haversine distance). -/
theorem projectPointToLineString_vertex_witness :
    projectPointToLineString mdist
        ([((0:ℚ),(0:ℚ)),(1,0),(2,1)].getD 1 (0,0)) [(0,0),(1,0),(2,1)] =
      ⟨(1 : ℚ), ((0:ℚ) : WithTop ℚ)⟩ :=
  (projectPointToLineString_vertex mdist [(0,0),(1,0),(2,1)] 1 (by decide)
    (by decide) (fun a b => by
      unfold mdist absQ
      split <;> split <;> nlinarith []) (by decide)).2
    (by decide) (fun j hj => absurd hj (by omega)) (by decide)

/-- Counterexample for C7 as stated: on the route `[(0,0),(1,0),(0,0)]`
(which returns to its start), projecting vertex 2 — the coordinate `(0,0)`
— reports distance 0 on the *first* segment, so `fractionalIndex` is 0,
not 2.  The claim's "fractionalIndex exactly equal to i" fails for every
vertex that reappears earlier on the route.  (`mdist (0,0) (0,0) = 0` and
`mdist ≥ 0`, exactly as the Haversine distance behaves on these inputs.) -/
theorem projectPointToLineString_vertex_cex :
    ([((0:ℚ),(0:ℚ)),(1,0),(0,0)].getD 2 (0,0) = ((0:ℚ),(0:ℚ))) ∧
    (projectPointToLineString mdist ((0:ℚ),(0:ℚ))
      [(0,0),(1,0),(0,0)]).distance = ((0:ℚ) : WithTop ℚ) ∧
    (projectPointToLineString mdist ((0:ℚ),(0:ℚ))
      [(0,0),(1,0),(0,0)]).fractionalIndex = 0 ∧
    (projectPointToLineString mdist ((0:ℚ),(0:ℚ))
      [(0,0),(1,0),(0,0)]).fractionalIndex ≠ 2 := by
  refine ⟨rfl, ?_, ?_, ?_⟩
  · decide
  · decide
  · decide

/-- C9: on a line with fewer than 2 coordinates the segment loop never
runs, so the projector returns its initial state unchanged:
`fractionalIndex = -1` (from `minIndex = -1`, `minT = 0`) and
`distance = Infinity`, without any out-of-bounds access. -/
theorem projectPointToLineString_short (dist : DistFn) (point : Coord)
    (line : List Coord) (h : line.length < 2) :
    projectPointToLineString dist point line = ⟨-1, ⊤⟩ := by
  match line, h with
  | [], _ =>
    unfold projectPointToLineString projLoop
    rw [ProjResult.mk.injEq]
    constructor
    · show ((-1 : ℤ) : ℚ) + 0 = -1
      norm_num
    · rfl
  | [c], _ =>
    unfold projectPointToLineString projLoop
    rw [ProjResult.mk.injEq]
    constructor
    · show ((-1 : ℤ) : ℚ) + 0 = -1
      norm_num
    · rfl

/-- Witness for C9 at concrete inputs: the empty line and a singleton. -/
theorem projectPointToLineString_short_witness :
    projectPointToLineString mdist (5,5) [] = ⟨-1, ⊤⟩ ∧
    projectPointToLineString mdist (5,5) [(7,7)] = ⟨-1, ⊤⟩ :=
  ⟨projectPointToLineString_short mdist (5,5) [] (by decide),
   projectPointToLineString_short mdist (5,5) [(7,7)] (by decide)⟩

/-- Witness for C4 (amended) at a concrete input: reversing the middle
fragment of a 3-fragment chain (not a near-loop) leaves the stitched result
unchanged. -/
theorem stitchWays_flip_invariant_witness :
    stitchWays [⟨1,[(0,0),(1,0)]⟩, ⟨2,[(2,0),(1,0)]⟩, ⟨3,[(2,0),(3,0)]⟩] =
      stitchWays [⟨1,[(0,0),(1,0)]⟩, ⟨2,[(1,0),(2,0)]⟩, ⟨3,[(2,0),(3,0)]⟩] := by
  have h := stitchWays_flip_invariant [⟨1,[(0,0),(1,0)]⟩] [⟨3,[(2,0),(3,0)]⟩]
    ⟨2,[(1,0),(2,0)]⟩ (by decide) (by decide) (by decide) ?_
  · exact h
  · intro lc s e h1 h2 h3
    rw [show (([⟨1,[(0,0),(1,0)]⟩] : List WayF).foldl stitchStep initStitch).lastCoord
      = some ((1:ℚ),(0:ℚ)) from by decide] at h1
    rw [show ((⟨2,[(1,0),(2,0)]⟩ : WayF)).geometry.head? = some ((1:ℚ),(0:ℚ)) from rfl] at h2
    rw [show ((⟨2,[(1,0),(2,0)]⟩ : WayF)).geometry.getLast? = some ((2:ℚ),(0:ℚ)) from rfl] at h3
    have hlc : lc = ((1:ℚ),(0:ℚ)) := (Option.some_inj.mp h1).symm
    have hs : s = ((1:ℚ),(0:ℚ)) := (Option.some_inj.mp h2).symm
    have he : e = ((2:ℚ),(0:ℚ)) := (Option.some_inj.mp h3).symm
    subst hlc hs he
    decide

/-- A stop id: either a real OSM node id (`node.id.toString()`) or the
deterministic virtual id derived from the stop's coordinates (the source
formats it as `virtual_${lon.toFixed(4)}_${lat.toFixed(4)}`; the
float-formatting is abstracted to the coordinate pair itself, which
determines it). -/
inductive StopId where
  | realId (s : String)
  | virtualId (lon lat : ℚ)
deriving DecidableEq, Repr

/-- A stop feature as `processAngkotStops` builds it: geometry coordinates
plus the `id`, `name`, `role`, `isReal` properties (the constant
`mode: 'bus'` field is omitted). -/
structure Stop where
  coords : Coord
  id : StopId
  name : String
  role : String
  isReal : Bool
deriving DecidableEq, Repr

/-- An Overpass node element (`{id, lon, lat, tags.name, role}`) as
`getOrderedStops` returns it. -/
structure NodeEl where
  nid : String
  lon : ℚ
  lat : ℚ
  name : String
  role : String
deriving DecidableEq, Repr

/-- The real-stop feature built from a node (step 1 of
`processAngkotStops`): `isReal: true`, id and name from the node. -/
def mkRealStop (n : NodeEl) : Stop :=
  ⟨(n.lon, n.lat), StopId.realId n.nid, n.name, n.role, true⟩

/-- The virtual-stop feature built at an interpolated coordinate:
`role: 'virtual'`, `isReal: false`. -/
def mkVirtualStop (c : Coord) (nm : String) : Stop :=
  ⟨c, StopId.virtualId c.1 c.2, nm, "virtual", false⟩

/-- `MAX_DISTANCE = 1.0` km. -/
def MAX_DISTANCE : ℚ := 1

/-- `MIN_DISTANCE = 0.25` km. -/
def MIN_DISTANCE : ℚ := 1/4

/-- The body of the `for (let i = 1; i <= numVirtual; i++)` loop of
`generateBetweenStops`: compute the interpolation target `idx`, skip
(`continue`) when its bracketing vertex index is out of range
(`coordIdx < 0 || coordIdx >= fullCoords.length - 1`), interpolate between
the bracketing vertices, and drop the candidate when it is within
`MIN_DISTANCE` of any real stop: see `virtualCandidate` below.

The linear interpolation of target `i`: with `idx = startIdx + i*step`,
`coordIdx = floor(idx)` and `t = idx - coordIdx`, interpolate between the
bracketing route vertices `fullCoords[coordIdx]` and
`fullCoords[coordIdx + 1]`. -/
def interpCoord (fullCoords : List Coord) (startIdx step : ℚ) (i : ℕ) : Coord :=
  let idx := startIdx + i * step
  let coordIdx : ℤ := ⌊idx⌋
  let t : ℚ := idx - coordIdx
  let c1 := fullCoords.getD coordIdx.toNat (0,0)
  let c2 := fullCoords.getD (coordIdx.toNat + 1) (0,0)
  (c1.1 + t * (c2.1 - c1.1), c1.2 + t * (c2.2 - c1.2))

def virtualCandidate (dist : DistFn) (nameOf : Coord → String)
    (realStops : List Stop) (fullCoords : List Coord)
    (startIdx step : ℚ) (i : ℕ) : Option Stop :=
  if ⌊startIdx + i * step⌋ < 0 ∨
      (fullCoords.length : ℤ) - 1 ≤ ⌊startIdx + i * step⌋ then none
  else if realStops.any (fun r =>
      decide (dist (interpCoord fullCoords startIdx step i) r.coords <
        MIN_DISTANCE * 1000))
    then none
  else some (mkVirtualStop (interpCoord fullCoords startIdx step i)
    (nameOf (interpCoord fullCoords startIdx step i)))

/-- `generateBetweenStops(start, end)` from `processAngkotStops`: project
both real stops onto the route, return `[]` when their great-circle
distance (in km) is at most `MAX_DISTANCE`, otherwise generate
`numVirtual = floor(distance / MAX_DISTANCE)` interpolation targets with
step `(endIdx - startIdx) / (numVirtual + 1)`.  `nameOf` is the
coordinate-to-name lookup built from the way geometries (first writer wins,
falling back to a placeholder); its string-keyed construction only affects
stop names, never positions. -/
def generateBetweenStops (dist : DistFn) (nameOf : Coord → String)
    (realStops : List Stop) (fullCoords : List Coord)
    (start fin : Stop) : List Stop :=
  let startIdx := (projectPointToLineString dist start.coords fullCoords).fractionalIndex
  let endIdx := (projectPointToLineString dist fin.coords fullCoords).fractionalIndex
  let distance := dist start.coords fin.coords / 1000
  if distance ≤ MAX_DISTANCE then []
  else
    let numVirtual : ℤ := ⌊distance / MAX_DISTANCE⌋
    let step := (endIdx - startIdx) / ((numVirtual : ℚ) + 1)
    (List.range' 1 numVirtual.toNat).filterMap
      (virtualCandidate dist nameOf realStops fullCoords startIdx step)

/-- The sort relation of `processAngkotStops`' comparator
`(a, b) => a._projection.fractionalIndex - b._projection.fractionalIndex`. -/
def stopLE (a b : Stop × ProjResult) : Prop :=
  a.2.fractionalIndex ≤ b.2.fractionalIndex

instance : DecidableRel stopLE := fun a b =>
  inferInstanceAs (Decidable (a.2.fractionalIndex ≤ b.2.fractionalIndex))

instance : IsTotal (Stop × ProjResult) stopLE :=
  ⟨fun a b => le_total a.2.fractionalIndex b.2.fractionalIndex⟩

instance : IsTrans (Stop × ProjResult) stopLE :=
  ⟨fun _ _ _ h1 h2 => le_trans h1 h2⟩

/-- The final-cleanup loop of `processAngkotStops`: walk the sorted
projected stops, keeping a stop when there is no previous kept stop yet, or
it is at least `MIN_DISTANCE` from the previous kept stop, or it is real;
the kept stop (minus its projection) is pushed and becomes `lastStop`. -/
def cleanupGo (dist : DistFn) : Option Stop → List (Stop × ProjResult) → List Stop
  | _, [] => []
  | last, p :: rest =>
    let shouldAdd := match last with
      | none => true
      | some ls =>
        decide (MIN_DISTANCE * 1000 ≤ dist ls.coords p.1.coords) || p.1.isReal
    if shouldAdd then p.1 :: cleanupGo dist (some p.1) rest
    else cleanupGo dist last rest

/-- `processAngkotStops(relation, fullCoords)` restricted to its pure core:
build the real stops from the relation's stop nodes, generate virtual stops
between each consecutive pair of real stops, combine, sort by projected
fractional position along the route, and run the minimum-spacing cleanup.
The Overpass fetches are abstracted into the `realStopNodes` input and the
`nameOf` lookup: see `processAngkotStops` below.

The `realStops` local of `processAngkotStops`. -/
def realStopsOf (realStopNodes : List NodeEl) : List Stop :=
  realStopNodes.map mkRealStop

/-- The `virtualStops` local of `processAngkotStops`: generated between
each consecutive pair of real stops. -/
def virtualStopsOf (dist : DistFn) (nameOf : Coord → String)
    (realStops : List Stop) (fullCoords : List Coord) : List Stop :=
  (realStops.zip realStops.tail).flatMap
    (fun p => generateBetweenStops dist nameOf realStops fullCoords p.1 p.2)

/-- The `projectedStops` local of `processAngkotStops` (before sorting):
each stop paired with its projection onto the route. -/
def projectedStopsOf (dist : DistFn) (stops : List Stop)
    (fullCoords : List Coord) : List (Stop × ProjResult) :=
  stops.map (fun s => (s, projectPointToLineString dist s.coords fullCoords))

def processAngkotStops (dist : DistFn) (nameOf : Coord → String)
    (realStopNodes : List NodeEl) (fullCoords : List Coord) : List Stop :=
  cleanupGo dist none (List.insertionSort stopLE
    (projectedStopsOf dist
      (realStopsOf realStopNodes ++
        virtualStopsOf dist nameOf (realStopsOf realStopNodes) fullCoords)
      fullCoords))

lemma cleanupGo_cons_none (dist : DistFn) (p : Stop × ProjResult)
    (rest : List (Stop × ProjResult)) :
    cleanupGo dist none (p :: rest) = p.1 :: cleanupGo dist (some p.1) rest := rfl

lemma cleanupGo_cons_some (dist : DistFn) (ls : Stop) (p : Stop × ProjResult)
    (rest : List (Stop × ProjResult)) :
    cleanupGo dist (some ls) (p :: rest) =
      if decide (MIN_DISTANCE * 1000 ≤ dist ls.coords p.1.coords) || p.1.isReal then
        p.1 :: cleanupGo dist (some p.1) rest
      else cleanupGo dist (some ls) rest := rfl

/-- The cleanup pass keeps a subsequence of the (projection-stripped)
input. -/
lemma cleanup_sublist (dist : DistFn) :
    ∀ (l : List (Stop × ProjResult)) (last : Option Stop),
      (cleanupGo dist last l).Sublist (l.map Prod.fst) := by
  intro l
  induction l with
  | nil => intro last; cases last <;> exact List.Sublist.refl _
  | cons p rest ih =>
    intro last
    cases last with
    | none =>
      rw [cleanupGo_cons_none, List.map_cons]
      exact (ih (some p.1)).cons₂ p.1
    | some ls =>
      rw [cleanupGo_cons_some, List.map_cons]
      by_cases h : (decide (MIN_DISTANCE * 1000 ≤ dist ls.coords p.1.coords) ||
          p.1.isReal) = true
      · rw [if_pos h]
        exact (ih (some p.1)).cons₂ p.1
      · rw [if_neg h]
        exact (ih (some ls)).cons p.1

/-- The cleanup pass never drops a real stop. -/
lemma cleanup_keeps_real (dist : DistFn) :
    ∀ (l : List (Stop × ProjResult)) (last : Option Stop) (p : Stop × ProjResult),
      p ∈ l → p.1.isReal = true → p.1 ∈ cleanupGo dist last l := by
  intro l
  induction l with
  | nil => intro last p hp _; simp at hp
  | cons q rest ih =>
    intro last p hp hreal
    rcases List.mem_cons.mp hp with rfl | hp2
    · cases last with
      | none =>
        rw [cleanupGo_cons_none]
        exact List.mem_cons_self _ _
      | some ls =>
        rw [cleanupGo_cons_some]
        have h : (decide (MIN_DISTANCE * 1000 ≤ dist ls.coords p.1.coords) ||
            p.1.isReal) = true := by
          rw [hreal, Bool.or_true]
        rw [if_pos h]
        exact List.mem_cons_self _ _
    · cases last with
      | none =>
        rw [cleanupGo_cons_none]
        exact List.mem_cons_of_mem _ (ih (some q.1) p hp2 hreal)
      | some ls =>
        rw [cleanupGo_cons_some]
        by_cases h : (decide (MIN_DISTANCE * 1000 ≤ dist ls.coords q.1.coords) ||
            q.1.isReal) = true
        · rw [if_pos h]
          exact List.mem_cons_of_mem _ (ih (some q.1) p hp2 hreal)
        · rw [if_neg h]
          exact ih (some ls) p hp2 hreal

/-- The invariant of the cleanup pass: along the kept list, a stop that is
not real is at least `MIN_DISTANCE` from the stop kept just before it
(including the incoming `lastStop`). -/
lemma cleanup_chainQ (dist : DistFn) :
    ∀ (l : List (Stop × ProjResult)) (last : Option Stop),
      List.Chain'
        (fun a b => b.isReal = false → MIN_DISTANCE * 1000 ≤ dist a.coords b.coords)
        (cleanupGo dist last l) ∧
      (∀ a s, last = some a → (cleanupGo dist last l).head? = some s →
        s.isReal = false → MIN_DISTANCE * 1000 ≤ dist a.coords s.coords) := by
  intro l
  induction l with
  | nil =>
    intro last
    refine ⟨List.chain'_nil, ?_⟩
    intro a s _ hs
    cases last <;> simp [cleanupGo] at hs
  | cons p rest ih =>
    intro last
    cases last with
    | none =>
      rw [cleanupGo_cons_none]
      constructor
      · rw [List.chain'_cons']
        refine ⟨?_, (ih (some p.1)).1⟩
        intro y hy
        exact (ih (some p.1)).2 p.1 y rfl hy
      · intro a s ha _
        cases ha
    | some ls =>
      rw [cleanupGo_cons_some]
      by_cases h : (decide (MIN_DISTANCE * 1000 ≤ dist ls.coords p.1.coords) ||
          p.1.isReal) = true
      · rw [if_pos h]
        constructor
        · rw [List.chain'_cons']
          refine ⟨?_, (ih (some p.1)).1⟩
          intro y hy
          exact (ih (some p.1)).2 p.1 y rfl hy
        · intro a s ha hs hvirt
          have ha2 : a = ls := by
            injection ha with h2
            exact h2.symm
          have hs2 : s = p.1 := by
            rw [List.head?_cons] at hs
            injection hs with h2
            exact h2.symm
          subst ha2
          subst hs2
          rw [hvirt, Bool.or_false] at h
          exact of_decide_eq_true h
      · rw [if_neg h]
        exact ih (some ls)

/-- Transfer a `Chain'` along an implication that may use membership. -/
lemma chain'_imp_mem {α : Type} {R S : α → α → Prop} :
    ∀ (l : List α), List.Chain' R l →
      (∀ a b, a ∈ l → b ∈ l → R a b → S a b) → List.Chain' S l := by
  intro l
  induction l with
  | nil => intro _ _; exact List.chain'_nil
  | cons x t ih =>
    intro hc himp
    rw [List.chain'_cons'] at hc ⊢
    refine ⟨?_, ih hc.2 (fun a b ha hb hr =>
      himp a b (List.mem_cons_of_mem _ ha) (List.mem_cons_of_mem _ hb) hr)⟩
    intro y hy
    exact himp x y (List.mem_cons_self _ _)
      (List.mem_cons_of_mem _ (List.mem_of_mem_head? hy)) (hc.1 y hy)

/-- Every stop produced by `virtualCandidate` is virtual and at least
`MIN_DISTANCE` from every real stop. -/
lemma virtualCandidate_far {dist : DistFn} {nameOf : Coord → String}
    {realStops : List Stop} {fullCoords : List Coord} {startIdx step : ℚ}
    {i : ℕ} {s : Stop}
    (h : virtualCandidate dist nameOf realStops fullCoords startIdx step i = some s) :
    s.isReal = false ∧
    ∀ r ∈ realStops, MIN_DISTANCE * 1000 ≤ dist s.coords r.coords := by
  unfold virtualCandidate at h
  split at h
  · exact absurd h (by simp)
  · split at h
    · exact absurd h (by simp)
    · next hany =>
      obtain rfl : mkVirtualStop (interpCoord fullCoords startIdx step i)
          (nameOf (interpCoord fullCoords startIdx step i)) = s :=
        Option.some_inj.mp h
      refine ⟨rfl, ?_⟩
      intro r hr
      rw [Bool.not_eq_true, List.any_eq_false] at hany
      have hle := hany r hr
      simp only [decide_eq_true_eq] at hle
      exact not_lt.mp hle

/-- Every stop produced by `generateBetweenStops` is virtual and at least
`MIN_DISTANCE` from every real stop. -/
lemma generateBetween_far {dist : DistFn} {nameOf : Coord → String}
    {realStops : List Stop} {fullCoords : List Coord} {a b s : Stop}
    (h : s ∈ generateBetweenStops dist nameOf realStops fullCoords a b) :
    s.isReal = false ∧
    ∀ r ∈ realStops, MIN_DISTANCE * 1000 ≤ dist s.coords r.coords := by
  simp only [generateBetweenStops] at h
  split at h
  · simp at h
  · obtain ⟨i, _, heq⟩ := List.mem_filterMap.mp h
    exact virtualCandidate_far heq

/-- C1: for every distance function, route and list of real-stop nodes, the
stop list returned by `processAngkotStops`' combine-sort-cleanup phase is
monotonically ordered by fractional position along the route, contains
every real stop, and never has two consecutive stops closer than
`MIN_DISTANCE` (250 m) unless both are real: a virtual stop is kept only
when at least `MIN_DISTANCE` from the previously kept stop, and survives
generation only when at least `MIN_DISTANCE` from every real stop. -/
theorem processAngkotStops_spec (dist : DistFn) (nameOf : Coord → String)
    (nodes : List NodeEl) (fullCoords : List Coord) :
    ((processAngkotStops dist nameOf nodes fullCoords).map
      (fun s => (projectPointToLineString dist s.coords fullCoords).fractionalIndex)).Sorted
        (· ≤ ·) ∧
    (∀ nd ∈ nodes, mkRealStop nd ∈ processAngkotStops dist nameOf nodes fullCoords) ∧
    List.Chain'
      (fun a b => dist a.coords b.coords < MIN_DISTANCE * 1000 →
        a.isReal = true ∧ b.isReal = true)
      (processAngkotStops dist nameOf nodes fullCoords) := by
  have hout : processAngkotStops dist nameOf nodes fullCoords =
      cleanupGo dist none (List.insertionSort stopLE
        (projectedStopsOf dist
          (realStopsOf nodes ++
            virtualStopsOf dist nameOf (realStopsOf nodes) fullCoords)
          fullCoords)) := rfl
  rw [hout]
  set realStops := realStopsOf nodes with hrs_eq
  set virtuals := virtualStopsOf dist nameOf realStops fullCoords with hvs_eq
  set allStops := realStops ++ virtuals with has_eq
  set projected := projectedStopsOf dist allStops fullCoords with hps_eq
  set sorted := List.insertionSort stopLE projected with hsd_eq
  set out := cleanupGo dist none sorted with ho_eq
  have hpmem : ∀ p ∈ sorted, p ∈ projected := by
    intro p hp
    rw [hsd_eq] at hp
    exact (List.perm_insertionSort stopLE projected).subset hp
  have hproj_char : ∀ p ∈ projected,
      p.2 = projectPointToLineString dist p.1.coords fullCoords ∧
      p.1 ∈ allStops := by
    intro p hp
    rw [hps_eq] at hp
    simp only [projectedStopsOf, List.mem_map] at hp
    obtain ⟨s0, hs0, rfl⟩ := hp
    exact ⟨rfl, hs0⟩
  have hmem_out : ∀ s ∈ out, s ∈ allStops := by
    intro s hs
    rw [ho_eq] at hs
    have hsub := cleanup_sublist dist sorted none
    have hmm : s ∈ sorted.map Prod.fst := hsub.subset hs
    obtain ⟨p, hp, rfl⟩ := List.mem_map.mp hmm
    exact (hproj_char p (hpmem p hp)).2
  have hreal_of : ∀ s ∈ realStops, s.isReal = true := by
    intro s hs
    rw [hrs_eq] at hs
    simp only [realStopsOf, List.mem_map] at hs
    obtain ⟨nd, _, rfl⟩ := hs
    rfl
  have hvirt_far : ∀ s ∈ virtuals, s.isReal = false ∧
      ∀ r ∈ realStops, MIN_DISTANCE * 1000 ≤ dist s.coords r.coords := by
    intro s hs
    rw [hvs_eq] at hs
    simp only [virtualStopsOf, List.mem_flatMap] at hs
    obtain ⟨pr, _, hsg⟩ := hs
    exact generateBetween_far hsg
  have hallreal : ∀ s ∈ allStops, s.isReal = true → s ∈ realStops := by
    intro s hs hr
    rw [has_eq] at hs
    rcases List.mem_append.mp hs with h | h
    · exact h
    · exact absurd hr (by rw [(hvirt_far s h).1]; simp)
  refine ⟨?_, ?_, ?_⟩
  · have hsorted : List.Sorted stopLE sorted := by
      rw [hsd_eq]
      exact List.sorted_insertionSort stopLE projected
    have hpw : List.Pairwise (fun p q : Stop × ProjResult =>
        (projectPointToLineString dist p.1.coords fullCoords).fractionalIndex ≤
        (projectPointToLineString dist q.1.coords fullCoords).fractionalIndex)
        sorted := by
      refine hsorted.imp_of_mem ?_
      intro p q hp hq hle
      have h1 := (hproj_char p (hpmem p hp)).1
      have h2 := (hproj_char q (hpmem q hq)).1
      unfold stopLE at hle
      rw [h1, h2] at hle
      exact hle
    have hpw2 : List.Pairwise (fun a b : Stop =>
        (projectPointToLineString dist a.coords fullCoords).fractionalIndex ≤
        (projectPointToLineString dist b.coords fullCoords).fractionalIndex)
        (sorted.map Prod.fst) := List.pairwise_map.mpr hpw
    have hsub : out.Sublist (sorted.map Prod.fst) := by
      rw [ho_eq]
      exact cleanup_sublist dist sorted none
    have hpw3 := List.Pairwise.sublist hsub hpw2
    exact List.pairwise_map.mpr hpw3
  · intro nd hnd
    have h1 : mkRealStop nd ∈ realStops := by
      rw [hrs_eq]
      exact List.mem_map_of_mem _ hnd
    have h2 : mkRealStop nd ∈ allStops := by
      rw [has_eq]
      exact List.mem_append_left _ h1
    have h3 : (mkRealStop nd,
        projectPointToLineString dist (mkRealStop nd).coords fullCoords) ∈ projected := by
      rw [hps_eq]
      unfold projectedStopsOf
      exact List.mem_map_of_mem _ h2
    have h4 : (mkRealStop nd,
        projectPointToLineString dist (mkRealStop nd).coords fullCoords) ∈ sorted := by
      rw [hsd_eq]
      exact ((List.perm_insertionSort stopLE projected).mem_iff).mpr h3
    rw [ho_eq]
    exact cleanup_keeps_real dist sorted none _ h4 rfl
  · have hQ : List.Chain'
        (fun a b => b.isReal = false → MIN_DISTANCE * 1000 ≤ dist a.coords b.coords)
        out := by
      rw [ho_eq]
      exact (cleanup_chainQ dist sorted none).1
    refine chain'_imp_mem out hQ ?_
    intro a b ha hb hr hlt
    have hb_real : b.isReal = true := by
      by_contra hb2
      have hbf : b.isReal = false := by
        rcases hbv : b.isReal with _ | _
        · rfl
        · exact absurd hbv hb2
      have := hr hbf
      linarith
    refine ⟨?_, hb_real⟩
    by_contra ha2
    have haf : a.isReal = false := by
      rcases hav : a.isReal with _ | _
      · rfl
      · exact absurd hav ha2
    have hamem : a ∈ allStops := hmem_out a ha
    have havirt : a ∈ virtuals := by
      rw [has_eq] at hamem
      rcases List.mem_append.mp hamem with h | h
      · exact absurd (hreal_of a h) (by rw [haf]; simp)
      · exact h
    have hfar := (hvirt_far a havirt).2
    have hbmem : b ∈ allStops := hmem_out b hb
    have hbrs : b ∈ realStops := hallreal b hbmem hb_real
    have := hfar b hbrs
    linarith

/-- Witness for C1 at a concrete input: two real stops 1.5 km apart on a
4-vertex straight route (one virtual stop gets inserted between them). -/
theorem processAngkotStops_spec_witness :
    mkRealStop ⟨"1", 0, 0, "Halte A", "stop"⟩ ∈
      processAngkotStops mdist (fun _ => "Jalan terdekat")
        [⟨"1", 0, 0, "Halte A", "stop"⟩, ⟨"2", 3, 0, "Halte B", "stop"⟩]
        [(0,0),(1,0),(2,0),(3,0)] :=
  (processAngkotStops_spec mdist (fun _ => "Jalan terdekat")
    [⟨"1", 0, 0, "Halte A", "stop"⟩, ⟨"2", 3, 0, "Halte B", "stop"⟩]
    [(0,0),(1,0),(2,0),(3,0)]).2.1 ⟨"1", 0, 0, "Halte A", "stop"⟩ (by decide)

/-- The C2 scenario route: a straight 11-vertex line whose vertices are
500 m apart under `mdist`, so the route is 5000 m long and the two real
stops project to fractional positions 0 and 10. -/
def routeC2 : List Coord :=
  [(0,0),(1,0),(2,0),(3,0),(4,0),(5,0),(6,0),(7,0),(8,0),(9,0),(10,0)]

/-- The C2 scenario's first real stop, at fractional position 0. -/
def stopC2a : Stop := mkRealStop ⟨"a", 0, 0, "A", "stop"⟩

/-- The C2 scenario's second real stop, at fractional position 10. -/
def stopC2b : Stop := mkRealStop ⟨"b", 10, 0, "B", "stop"⟩

/-- Counterexample for C2 as stated: in the spec's scenario (real stops at
fractional positions 0 and 10 on a 5000 m route, `MAX_SPACING = 1000` m,
`MIN_SPACING = 250` m) the code computes
`numVirtual = floor(5000/1000) = 5`, not 4: `generateBetweenStops` inserts
exactly 5 virtual stops, so "exactly 4 virtual stops ... at ~1000 m
intervals" is false. -/
theorem generateBetweenStops_scenario_cex :
    mdist stopC2a.coords stopC2b.coords = 5000 ∧
    (projectPointToLineString mdist stopC2a.coords routeC2).fractionalIndex = 0 ∧
    (projectPointToLineString mdist stopC2b.coords routeC2).fractionalIndex = 10 ∧
    (generateBetweenStops mdist (fun _ => "Jalan terdekat") [stopC2a, stopC2b]
      routeC2 stopC2a stopC2b).length ≠ 4 := by
  refine ⟨by decide, by decide, by decide, ?_⟩
  intro h
  rw [show (generateBetweenStops mdist (fun _ => "Jalan terdekat")
    [stopC2a, stopC2b] routeC2 stopC2a stopC2b).length = 5 from by decide] at h
  exact absurd h (by decide)

set_option maxRecDepth 8000 in
/-- C2 (amended): in the scenario the synthesizer inserts exactly
`numVirtual = floor(5000 m / 1000 m) = 5` virtual stops, evenly spaced at
`5000/6 ≈ 833` m intervals (consecutive gaps along
real-virtuals-real all equal `5000/6`), none of them within 250 m of either
real stop. -/
theorem generateBetweenStops_scenario :
    (generateBetweenStops mdist (fun _ => "Jalan terdekat") [stopC2a, stopC2b]
      routeC2 stopC2a stopC2b).length = 5 ∧
    (generateBetweenStops mdist (fun _ => "Jalan terdekat") [stopC2a, stopC2b]
      routeC2 stopC2a stopC2b).map (fun s => s.coords) =
      [(5/3, 0), (10/3, 0), (5, 0), (20/3, 0), (25/3, 0)] ∧
    (((stopC2a.coords :: ((generateBetweenStops mdist (fun _ => "Jalan terdekat")
        [stopC2a, stopC2b] routeC2 stopC2a stopC2b).map (fun s => s.coords) ++
        [stopC2b.coords])).zip
      ((stopC2a.coords :: ((generateBetweenStops mdist (fun _ => "Jalan terdekat")
        [stopC2a, stopC2b] routeC2 stopC2a stopC2b).map (fun s => s.coords) ++
        [stopC2b.coords])).tail)).all
      (fun pr => decide (mdist pr.1 pr.2 = 5000/6))) = true ∧
    ((generateBetweenStops mdist (fun _ => "Jalan terdekat") [stopC2a, stopC2b]
      routeC2 stopC2a stopC2b).all
      (fun s => decide (MIN_DISTANCE * 1000 ≤ mdist s.coords stopC2a.coords) &&
        decide (MIN_DISTANCE * 1000 ≤ mdist s.coords stopC2b.coords))) = true := by
  refine ⟨by decide, by decide, by decide, by decide⟩

/-- C10: out-of-range interpolation targets are silently skipped, and
in-range ones only read the route array inside its bounds.  Part 1: a
target whose floor is negative or at least `length - 1` yields no stop.
Part 2: a produced stop implies its target index was in range, with both
bracketing indices inside the array.  Part 3: every stop produced by
`generateBetweenStops` comes from such a candidate, so the generation never
indexes outside the route coordinate array. -/
theorem virtualCandidate_bounds (dist : DistFn) (nameOf : Coord → String)
    (realStops : List Stop) (fullCoords : List Coord) :
    (∀ (startIdx step : ℚ) (i : ℕ),
      (⌊startIdx + i * step⌋ < 0 ∨
        (fullCoords.length : ℤ) - 1 ≤ ⌊startIdx + i * step⌋) →
      virtualCandidate dist nameOf realStops fullCoords startIdx step i = none) ∧
    (∀ (startIdx step : ℚ) (i : ℕ) (s : Stop),
      virtualCandidate dist nameOf realStops fullCoords startIdx step i = some s →
      0 ≤ ⌊startIdx + i * step⌋ ∧
      ⌊startIdx + i * step⌋ < (fullCoords.length : ℤ) - 1 ∧
      (⌊startIdx + i * step⌋).toNat < fullCoords.length ∧
      (⌊startIdx + i * step⌋).toNat + 1 < fullCoords.length) ∧
    (∀ (a b s : Stop),
      s ∈ generateBetweenStops dist nameOf realStops fullCoords a b →
      ∃ (startIdx step : ℚ) (i : ℕ),
        virtualCandidate dist nameOf realStops fullCoords startIdx step i = some s) := by
  refine ⟨?_, ?_, ?_⟩
  · intro startIdx step i h
    unfold virtualCandidate
    rw [if_pos h]
  · intro startIdx step i s h
    unfold virtualCandidate at h
    split at h
    · exact absurd h (by simp)
    · next hcond =>
      push_neg at hcond
      refine ⟨hcond.1, hcond.2, ?_, ?_⟩ <;> omega
  · intro a b s h
    simp only [generateBetweenStops] at h
    split at h
    · simp at h
    · obtain ⟨i, _, heq⟩ := List.mem_filterMap.mp h
      exact ⟨_, _, i, heq⟩

/-- Witness for C10 at concrete inputs: an out-of-range target on a
2-vertex route is skipped. -/
theorem virtualCandidate_bounds_witness :
    virtualCandidate mdist (fun _ => "Jalan terdekat") [] [(0,0),(1,0)] 5 1 1 = none :=
  (virtualCandidate_bounds mdist (fun _ => "Jalan terdekat") [] [(0,0),(1,0)]).1
    5 1 1 (by decide)

/-- A route entry from `routes.json` as the orchestrator's main loop
consumes it (only the fields the loop reads). -/
structure RouteEntry where
  relationId : String
  mode : String
deriving DecidableEq, Repr

/-- The `while (attempts > 0 && !success)` retry loop of the orchestrator,
for one route: `proc k` is the outcome of the `k`-th call of
`processRoute` (ok = success, error = the thrown exception, which the
`catch` swallows while decrementing `attempts`).  Returns whether the route
eventually succeeded and how many attempts were made. -/
def attemptRoute (proc : ℕ → Except String Unit) : ℕ → ℕ → Bool × ℕ
  | 0, used => (false, used)
  | n + 1, used =>
    match proc used with
    | Except.ok _ => (true, used + 1)
    | Except.error _ => attemptRoute proc n (used + 1)

/-- The `for (const route of uniqueRoutes)` loop of the orchestrator: each
route runs its own bounded retry loop (`attempts = 3`) and the iteration
then moves on to the next route regardless of the outcome. -/
def mainLoop (proc : RouteEntry → ℕ → Except String Unit) :
    List RouteEntry → List (RouteEntry × Bool × ℕ)
  | [] => []
  | r :: rs => (r, attemptRoute (proc r) 3 0) :: mainLoop proc rs

lemma attemptRoute_succ (proc : ℕ → Except String Unit) (n used : ℕ) :
    attemptRoute proc (n + 1) used =
      match proc used with
      | Except.ok _ => (true, used + 1)
      | Except.error _ => attemptRoute proc n (used + 1) := rfl

lemma attemptRoute_used (proc : ℕ → Except String Unit) :
    ∀ (n used : ℕ),
      used ≤ (attemptRoute proc n used).2 ∧
      (attemptRoute proc n used).2 ≤ used + n ∧
      (1 ≤ n → used + 1 ≤ (attemptRoute proc n used).2) := by
  intro n
  induction n with
  | zero => intro used; exact ⟨le_refl _, by simp [attemptRoute], by omega⟩
  | succ n ih =>
    intro used
    rw [attemptRoute_succ]
    cases hp : proc used with
    | ok v =>
      show used ≤ used + 1 ∧ used + 1 ≤ used + (n + 1) ∧
        (1 ≤ n + 1 → used + 1 ≤ used + 1)
      exact ⟨by omega, by omega, fun _ => by omega⟩
    | error e =>
      show used ≤ (attemptRoute proc n (used + 1)).2 ∧
        (attemptRoute proc n (used + 1)).2 ≤ used + (n + 1) ∧
        (1 ≤ n + 1 → used + 1 ≤ (attemptRoute proc n (used + 1)).2)
      obtain ⟨h1, h2, _⟩ := ih (used + 1)
      exact ⟨by omega, by omega, fun _ => by omega⟩

/-- C8: a failure of one route never prevents processing of the subsequent
routes.  For every outcome oracle `proc` and route list, the main loop
produces exactly one entry per route, in order, and each route is attempted
at least once and at most 3 times; after a route's attempts are exhausted
the loop continues with the next route rather than exiting. -/
theorem mainLoop_isolates_failures (proc : RouteEntry → ℕ → Except String Unit)
    (routes : List RouteEntry) :
    (mainLoop proc routes).map Prod.fst = routes ∧
    ∀ e ∈ mainLoop proc routes, 1 ≤ e.2.2 ∧ e.2.2 ≤ 3 := by
  induction routes with
  | nil => exact ⟨rfl, by intro e he; simp [mainLoop] at he⟩
  | cons r rs ih =>
    refine ⟨?_, ?_⟩
    · show (r, attemptRoute (proc r) 3 0).1 :: (mainLoop proc rs).map Prod.fst = r :: rs
      rw [ih.1]
    · intro e he
      rcases List.mem_cons.mp he with rfl | he2
      · obtain ⟨h1, h2, h3⟩ := attemptRoute_used (proc r) 3 0
        have h4 := h3 (by omega)
        refine ⟨?_, ?_⟩
        · show 1 ≤ (attemptRoute (proc r) 3 0).2
          omega
        · show (attemptRoute (proc r) 3 0).2 ≤ 3
          omega
      · exact ih.2 e he2

/-- Witness for C8 at a concrete input: two routes whose processing always
throws; both appear in the loop's output with exactly 3 attempts each. -/
theorem mainLoop_isolates_failures_witness :
    (mainLoop (fun _ _ => Except.error "Overpass query failed")
      [⟨"123", "angkot"⟩, ⟨"456", "train"⟩]).map Prod.fst =
      [⟨"123", "angkot"⟩, ⟨"456", "train"⟩] ∧
    (1 ≤ ((⟨"123", "angkot"⟩, false, 3) : RouteEntry × Bool × ℕ).2.2 ∧
      ((⟨"123", "angkot"⟩, false, 3) : RouteEntry × Bool × ℕ).2.2 ≤ 3) :=
  ⟨(mainLoop_isolates_failures (fun _ _ => Except.error "Overpass query failed")
      [⟨"123", "angkot"⟩, ⟨"456", "train"⟩]).1,
   (mainLoop_isolates_failures (fun _ _ => Except.error "Overpass query failed")
      [⟨"123", "angkot"⟩, ⟨"456", "train"⟩]).2
      (⟨"123", "angkot"⟩, false, 3) (by decide)⟩
